import Mathlib

/-
Verification of the core data pipeline of the hsmse-homework-checker
repository: date normalization (tools/assignment_utils.py), record building
(create_assignment_object), within-source deduplication
(tools/get_google_classroom_assignments.py, extract_all_assignments),
chronological sorting and course-color allocation and consolidation
(tools/get_assignments.py).

Python strings are modelled as Lean String / List Char (ASCII scope: the
repository's course names, date strings and sentinel keywords are ASCII).
Python datetime values are modelled as integer day ordinals (days since
1970-01-01, a Thursday) for the date normalizer, and as an injective
numeric encoding of (year, month, day, hour, minute, second, microsecond)
for the sorter's timestamps.  The third-party dateutil parser invoked as
the normalizer's last step is an external collaborator and is passed in as
an explicit function parameter.
-/

namespace HomeworkChecker

/-! ### Character and string utilities (Python str operations, ASCII) -/

/-- Python str.strip() whitespace set (ASCII). -/
def isPySpace (c : Char) : Bool :=
  c = ' ' || c = '\t' || c = '\n' || c = '\r' || c = '\x0b' || c = '\x0c'

/-- Python str.strip(): drop leading and trailing whitespace. -/
def stripWS (cs : List Char) : List Char :=
  ((cs.dropWhile isPySpace).reverse.dropWhile isPySpace).reverse

/-- Python str.lower() (ASCII letters). -/
def lowerOf (cs : List Char) : List Char :=
  cs.map Char.toLower

/-- needle is a leading segment of hay. -/
def startsWith : List Char → List Char → Bool
  | [], _ => true
  | _ :: _, [] => false
  | a :: as, b :: bs => a = b && startsWith as bs

/-- Python substring containment: needle in hay. -/
def isSub (needle : List Char) : List Char → Bool
  | [] => needle.isEmpty
  | c :: rest => startsWith needle (c :: rest) || isSub needle rest

/-! ### Data model

An assignment record, as built by create_assignment_object in
tools/assignment_utils.py.  The Python dict key 'class' is the field
className here.  due_date_parsed holds parse_assignment_date's output as
stored in the record: Python None is none, a string (canonical date or raw
fallback text) is some.  max_points holds Python None as none and a
non-negative int as some. -/

structure Assignment where
  name : String
  className : String
  due_date : String
  due_date_parsed : Option String
  url : String
  description : String
  max_points : Option Nat
deriving DecidableEq

/-- create_assignment_object (tools/assignment_utils.py, lines 145-155).
In Python, description defaults to the empty string and max_points
defaults to 0 (modelled as some 0) when the caller omits them. -/
def createAssignmentObject (name className due_date : String)
    (due_date_parsed : Option String) (url description : String)
    (max_points : Option Nat) : Assignment :=
  { name := name
    className := className
    due_date := due_date
    due_date_parsed := due_date_parsed
    url := url
    description := description
    max_points := max_points }

/-! ### Within-source deduplication

extract_all_assignments (tools/get_google_classroom_assignments.py,
lines 771-792): records found on the Done tab are merged into the missing
list after deduplication against a seen-key set. -/

/-- The f"{name}::{class}" composite key. -/
def nck (a : Assignment) : String :=
  a.name ++ "::" ++ a.className

/-- The two identity keys of a record: its url key and its composite key. -/
def recKeys (a : Assignment) : List String :=
  [a.url, nck a]

/-- The seen-key set built from the primary (missing) list: for every
record both its url (added unconditionally, even when empty) and its
composite key are added (lines 775-780). -/
def primKeys (primary : List Assignment) : List String :=
  primary.foldl (fun acc a => nck a :: a.url :: acc) []

/-- The filtering loop over the Done-tab candidates (lines 782-789): a
candidate survives when neither of its keys is in the seen set; both keys
of a surviving candidate are added to the set before later candidates are
tested. -/
def dedupeGo (seen : List String) : List Assignment → List Assignment
  | [] => []
  | c :: rest =>
    if c.url ∉ seen ∧ nck c ∉ seen then
      c :: dedupeGo (nck c :: c.url :: seen) rest
    else
      dedupeGo seen rest

/-- The within-source deduplication of extract_all_assignments: the list
of Done-tab candidates that get appended to the missing list. -/
def dedupeMissing (primary candidate : List Assignment) : List Assignment :=
  dedupeGo (primKeys primary) candidate

/-- The seen-key set after the filtering loop has processed a candidate
list (same recursion as dedupeGo, returning the final set). -/
def seenAfter (seen : List String) : List Assignment → List String
  | [] => seen
  | c :: rest =>
    if c.url ∉ seen ∧ nck c ∉ seen then
      seenAfter (nck c :: c.url :: seen) rest
    else
      seenAfter seen rest

/-! Claim C1's own description of the deduplication, used to compare the
claim's words against the code. -/

/-- Modelled from the claim's words for C1: the identity-key set built
from primary containing, for each record, its url only if non-empty, and
its composite key. -/
def primKeysSpecC1 (primary : List Assignment) : List String :=
  primary.foldl
    (fun acc a => if a.url = "" then nck a :: acc else nck a :: a.url :: acc) []

/-- Modelled from the claim's words for C1: keep exactly those candidates
whose url key (counted only when the url is non-empty) and composite key
both fail to appear in the primary identity-key set. -/
def specDedupeC1 (primary candidate : List Assignment) : List Assignment :=
  candidate.filter (fun c =>
    decide ((c.url = "" ∨ c.url ∉ primKeysSpecC1 primary) ∧
            nck c ∉ primKeysSpecC1 primary))

/-- A concrete record with empty url (as every Jupiter record has). -/
def recEmptyUrlA : Assignment :=
  createAssignmentObject "A" "X" "Monday" (some "2025-03-03") "" "" (some 0)

/-- A second concrete record with empty url but different name and class. -/
def recEmptyUrlB : Assignment :=
  createAssignmentObject "B" "Y" "Tuesday" (some "2025-03-04") "" "" (some 0)

/-! ### Date normalizer

parse_assignment_date (tools/assignment_utils.py, lines 70-143).
Calendar dates are integer day ordinals: days since 1970-01-01, which was
a Thursday.  Python's today.weekday() (Monday = 0 .. Sunday = 6) is then
(d + 3) mod 7.  The final dateutil_parser.parse call is an external
library; it is modelled by the parameter ext, which receives the stripped
text and today and returns some day ordinal, or none when the library
raises ValueError or TypeError. -/

/-- The normalizer's result: Python None (absent), a canonical date
(returned as strftime('%Y-%m-%d') of this day ordinal), or the original
input text returned unmodified after a parse failure. -/
inductive DateParseResult where
  | absent
  | canonical (day : Int)
  | raw (text : String)
deriving DecidableEq

/-- Line 78: empty string or a literal sentinel. -/
def isEmptySentinel (s : String) : Bool :=
  s = "" || s = "Unknown" || s = "No due date"

/-- Line 82: case-insensitive substring check for skip keywords. -/
def hasSkipKeyword (s : String) : Bool :=
  isSub ("posted".data) (lowerOf s.data) ||
  isSub ("no due date".data) (lowerOf s.data) ||
  isSub ("unknown".data) (lowerOf s.data)

/-- Lines 90-95: relative-day keywords, checked on the stripped text,
in this order, each a case-insensitive substring test. -/
def relativeDay (clean : List Char) (today : Int) : Option Int :=
  if isSub ("today".data) (lowerOf clean) then some today
  else if isSub ("yesterday".data) (lowerOf clean) then some (today - 1)
  else if isSub ("tomorrow".data) (lowerOf clean) then some (today + 1)
  else none

/-- Lines 103-108: the month names and 3-letter abbreviations. -/
def monthNames : List String :=
  ["january", "february", "march", "april", "may", "june",
   "july", "august", "september", "october", "november", "december",
   "jan", "feb", "mar", "apr", "may", "jun",
   "jul", "aug", "sep", "oct", "nov", "dec"]

/-- Any month name occurs as a substring of the lowercased text. -/
def hasMonth (lcl : List Char) : Bool :=
  monthNames.any (fun mo => isSub mo.data lcl)

/-- Python word characters (ASCII scope of re's \w). -/
def isWordChar (c : Char) : Bool :=
  c.isAlpha || c.isDigit || c = '_'

/-- A word boundary sits before the next character when the previous
character (none at the start of the string) is not a word character.
All three regex alternatives start with a digit, so the boundary holds
exactly when the previous character is not a word character. -/
def boundaryBefore (prev : Option Char) : Bool :=
  match prev with
  | none => true
  | some c => !isWordChar c

/-- First regex alternative, after the boundary: one or two digits, then
a slash or dash, then at least one digit (the pattern's second digit pair
needs only its first digit to exist for a match). -/
def matchSlashDash : List Char → Bool
  | a :: s :: b :: rest =>
    a.isDigit &&
    (((s = '/' || s = '-') && b.isDigit) ||
     (s.isDigit && (b = '/' || b = '-') &&
       (match rest with
        | c :: _ => c.isDigit
        | [] => false)))
  | _ => false

/-- Comma at the head of the list. -/
def headComma : List Char → Bool
  | ',' :: _ => true
  | _ => false

/-- Second regex alternative, after the boundary and the one or two
digits: optional whitespace, an optional ordinal suffix st/nd/rd/th
(the text is already lowercased), optional whitespace, then a comma. -/
def matchOrdinalComma (cs : List Char) : Bool :=
  let afterWS := cs.dropWhile isPySpace
  headComma afterWS ||
  (match afterWS with
   | a :: b :: rest =>
     ((a = 's' && b = 't') || (a = 'n' && b = 'd') ||
      (a = 'r' && b = 'd') || (a = 't' && b = 'h')) &&
     headComma (rest.dropWhile isPySpace)
   | _ => false)

/-- Digits at the head of the list: the second alternative consumes one
or two digits before its suffix and comma. -/
def matchDigitsThenOrdinalComma (cs : List Char) : Bool :=
  match cs with
  | a :: rest =>
    a.isDigit &&
    (matchOrdinalComma rest ||
     (match rest with
      | b :: rest2 => b.isDigit && matchOrdinalComma rest2
      | _ => false))
  | _ => false

/-- Third regex alternative: exactly four digits followed by a word
boundary (end of string or a non-word character). -/
def matchYear4 (cs : List Char) : Bool :=
  match cs with
  | a :: b :: c :: d :: rest =>
    a.isDigit && b.isDigit && c.isDigit && d.isDigit &&
    (match rest with
     | [] => true
     | e :: _ => !isWordChar e)
  | _ => false

/-- Line 112: re.search for a date-shaped numeric token
(\b digit pair with slash or dash, \b digits with optional ordinal suffix
and a comma, or \b four digits \b) anywhere in the lowercased text. -/
def hasDateNumbersGo (prev : Option Char) (cs : List Char) : Bool :=
  (boundaryBefore prev &&
    (matchSlashDash cs || matchDigitsThenOrdinalComma cs || matchYear4 cs)) ||
  (match cs with
   | [] => false
   | c :: rest => hasDateNumbersGo (some c) rest)

/-- re.search over the whole string, starting at the beginning. -/
def hasDateNumbers (lcl : List Char) : Bool :=
  hasDateNumbersGo none lcl

/-- Lines 99 and 116-117: the first weekday name (in the list order
monday..sunday) occurring as a substring of the lowercased text, returned
as its index (Monday = 0 .. Sunday = 6). -/
def findWeekday (lcl : List Char) : Option Nat :=
  if isSub ("monday".data) lcl then some 0
  else if isSub ("tuesday".data) lcl then some 1
  else if isSub ("wednesday".data) lcl then some 2
  else if isSub ("thursday".data) lcl then some 3
  else if isSub ("friday".data) lcl then some 4
  else if isSub ("saturday".data) lcl then some 5
  else if isSub ("sunday".data) lcl then some 6
  else none

/-- Python's today.weekday() on a day ordinal: Monday = 0 .. Sunday = 6
(day 0 = 1970-01-01 was a Thursday, index 3). -/
def pyWeekday (d : Int) : Int :=
  (d + 3) % 7

/-- Lines 122-135: resolve a weekday index to a date.  For missing
assignments the most recent occurrence strictly before today (7 days ago
on an exact match); for assigned assignments the next occurrence strictly
after today (7 days ahead on an exact match). -/
def weekdayDate (w : Nat) (today : Int) (isMissing : Bool) : Int :=
  if isMissing then
    let daysAgo := (pyWeekday today - (w : Int)) % 7
    today - (if daysAgo = 0 then 7 else daysAgo)
  else
    let daysAhead := ((w : Int) - pyWeekday today) % 7
    today + (if daysAhead = 0 then 7 else daysAhead)

/-- Lines 115-135: the whole weekday step, guarded: it applies only when
the text has no month name and no date-shaped numeric token. -/
def weekdayResult (clean : List Char) (today : Int) (isMissing : Bool) :
    Option Int :=
  let lcl := lowerOf clean
  if !hasMonth lcl && !hasDateNumbers lcl then
    (findWeekday lcl).map (fun w => weekdayDate w today isMissing)
  else
    none

/-- parse_assignment_date (tools/assignment_utils.py, lines 70-143).
The steps in the source's order: sentinel checks return None; the
relative-day keywords; the guarded weekday step; then the external
dateutil parser on the stripped text, whose failure (the caught
ValueError / TypeError) returns the original input unmodified. -/
def parseAssignmentDate (s : String) (isMissing : Bool) (today : Int)
    (ext : List Char → Int → Option Int) : DateParseResult :=
  if isEmptySentinel s then .absent
  else if hasSkipKeyword s then .absent
  else
    let clean := stripWS s.data
    match relativeDay clean today with
    | some d => .canonical d
    | none =>
      match weekdayResult clean today isMissing with
      | some d => .canonical d
      | none =>
        match ext clean today with
        | some d => .canonical d
        | none => .raw s

/-! ### Chronological sorter

sort_assignments_by_date (tools/get_assignments.py, lines 25-42).
Timestamps are encoded injectively and monotonically as
((((((year * 13 + month) * 32 + day) * 24 + hour) * 60 + minute) * 60 +
second) * 1000000 + microsecond, so that the encoding order agrees with
Python's datetime order on the component ranges.  datetime.max is
9999-12-31 23:59:59.999999. -/

/-- The monotone timestamp encoding. -/
def encTs (y m d h mi s us : Nat) : Nat :=
  (((((y * 13 + m) * 32 + d) * 24 + h) * 60 + mi) * 60 + s) * 1000000 + us

/-- datetime.max, the sentinel sort key for records without a usable
canonical date. -/
def dtMax : Nat :=
  encTs 9999 12 31 23 59 59 999999

/-- Gregorian leap year. -/
def isLeap (y : Nat) : Bool :=
  y % 4 = 0 && (y % 100 ≠ 0 || y % 400 = 0)

/-- Days in a month of a given year. -/
def daysInMonth (y m : Nat) : Nat :=
  if m = 2 then (if isLeap y then 29 else 28)
  else if m = 4 || m = 6 || m = 9 || m = 11 then 30
  else 31

/-- One ASCII digit. -/
def readDigit (c : Char) : Option Nat :=
  if 48 ≤ c.toNat ∧ c.toNat ≤ 57 then some (c.toNat - 48) else none

/-- Two ASCII digits, returning the value and the rest of the input. -/
def read2 : List Char → Option (Nat × List Char)
  | a :: b :: rest =>
    match readDigit a, readDigit b with
    | some x, some y => some (10 * x + y, rest)
    | _, _ => none
  | _ => none

/-- Four ASCII digits, returning the value and the rest of the input. -/
def read4 : List Char → Option (Nat × List Char)
  | a :: b :: c :: d :: rest =>
    match readDigit a, readDigit b, readDigit c, readDigit d with
    | some w, some x, some y, some z =>
      some (1000 * w + 100 * x + 10 * y + z, rest)
    | _, _, _, _ => none
  | _ => none

/-- A required literal character. -/
def expectChar (c : Char) : List Char → Option (List Char)
  | x :: rest => if x = c then some rest else none
  | _ => none

/-- The HH:MM:SS tail of an ISO timestamp, which must use the whole rest
of the input; components are range-checked as datetime does. -/
def parseTimePart (y m d : Nat) (t : List Char) : Option Nat :=
  (read2 t).bind fun hr =>
  (expectChar ':' hr.2).bind fun r1 =>
  (read2 r1).bind fun mir =>
  (expectChar ':' mir.2).bind fun r2 =>
  (read2 r2).bind fun ser =>
  if ser.2 = [] ∧ hr.1 ≤ 23 ∧ mir.1 ≤ 59 ∧ ser.1 ≤ 59 then
    some (encTs y m d hr.1 mir.1 ser.1 0)
  else none

/-- datetime.fromisoformat on the string shapes this pipeline can feed
it: a YYYY-MM-DD date (strict two-digit month and day, range-checked with
leap years), either alone (midnight, as in Python) or followed by
T and an HH:MM:SS time.  Any other shape fails, as fromisoformat raises
ValueError on it. -/
def isoParse (cs : List Char) : Option Nat :=
  (read4 cs).bind fun yr =>
  (expectChar '-' yr.2).bind fun r1 =>
  (read2 r1).bind fun mr =>
  (expectChar '-' mr.2).bind fun r2 =>
  (read2 r2).bind fun dr =>
  if 1 ≤ yr.1 ∧ 1 ≤ mr.1 ∧ mr.1 ≤ 12 ∧ 1 ≤ dr.1 ∧
      dr.1 ≤ daysInMonth yr.1 mr.1 then
    if dr.2 = [] then some (encTs yr.1 mr.1 dr.1 0 0 0 0)
    else if dr.2.head? = some 'T' then parseTimePart yr.1 mr.1 dr.1 dr.2.tail
    else none
  else none

/-- Python: 'T' in due_date_parsed. -/
def hasT (s : String) : Bool :=
  s.data.contains 'T'

/-- The string actually handed to fromisoformat (lines 32-35): the value
itself when it contains a T, otherwise the value with T23:59:59 appended
so a date-only value sorts as end of day. -/
def isoInput (s : String) : List Char :=
  if hasT s then s.data else (s ++ "T23:59:59").data

/-- get_sort_key (lines 27-40): a record with no parsed date, an empty
parsed date, or a parsed date that fromisoformat rejects gets
datetime.max; otherwise the parsed timestamp. -/
def getSortKey (a : Assignment) : Nat :=
  match a.due_date_parsed with
  | none => dtMax
  | some s =>
    if s = "" then dtMax
    else
      match isoParse (isoInput s) with
      | some n => n
      | none => dtMax

/-- The sort relation: compare records by their sort key. -/
def keyLE (a b : Assignment) : Prop :=
  getSortKey a ≤ getSortKey b

instance : DecidableRel keyLE :=
  fun a b => inferInstanceAs (Decidable (getSortKey a ≤ getSortKey b))

instance : IsTotal Assignment keyLE :=
  ⟨fun a b => Nat.le_total (getSortKey a) (getSortKey b)⟩

instance : IsTrans Assignment keyLE :=
  ⟨fun _ _ _ h1 h2 => Nat.le_trans h1 h2⟩

/-- sort_assignments_by_date: Python's sorted is a stable sort on the
key order, which is extensionally insertion sort on the key relation. -/
def sortAssignmentsByDate (l : List Assignment) : List Assignment :=
  List.insertionSort keyLE l

/-- The YYYY-MM-DD rendering used to state what a valid canonical date
is: four zero-padded year digits, a dash, two month digits, a dash, two
day digits (the shape strftime('%Y-%m-%d') produces). -/
def digitChar (k : Nat) : Char :=
  match k with
  | 0 => '0' | 1 => '1' | 2 => '2' | 3 => '3' | 4 => '4'
  | 5 => '5' | 6 => '6' | 7 => '7' | 8 => '8' | _ => '9'

/-- Two zero-padded decimal digits. -/
def pad2 (n : Nat) : List Char :=
  [digitChar (n / 10 % 10), digitChar (n % 10)]

/-- Four zero-padded decimal digits. -/
def pad4 (n : Nat) : List Char :=
  [digitChar (n / 1000 % 10), digitChar (n / 100 % 10),
   digitChar (n / 10 % 10), digitChar (n % 10)]

/-- The canonical YYYY-MM-DD string of a date. -/
def formatYMD (y m d : Nat) : String :=
  ⟨pad4 y ++ '-' :: pad2 m ++ '-' :: pad2 d⟩

/-- The canonical YYYY-MM-DDTHH:MM:SS string of a timestamp. -/
def formatYMDHMS (y m d h mi s : Nat) : String :=
  ⟨pad4 y ++ '-' :: pad2 m ++ '-' :: pad2 d ++ 'T' ::
    (pad2 h ++ ':' :: pad2 mi ++ ':' :: pad2 s)⟩

/-- A valid calendar date in the range datetime accepts. -/
def ValidDate (y m d : Nat) : Prop :=
  1 ≤ y ∧ y ≤ 9999 ∧ 1 ≤ m ∧ m ≤ 12 ∧ 1 ≤ d ∧ d ≤ daysInMonth y m

instance (y m d : Nat) : Decidable (ValidDate y m d) :=
  inferInstanceAs (Decidable (_ ∧ _))

/-! ### Jupiter record construction

scrape_class_assignments (tools/get_jupiter_assignments.py,
lines 262-340): the points cell's text is searched for a digit run and
the record is built with create_assignment_object. -/

/-- The leftmost maximal digit run in the text (re.search r'(\d+)'). -/
def firstDigitRun : List Char → List Char
  | [] => []
  | c :: rest =>
    if c.isDigit then c :: rest.takeWhile (fun ch => ch.isDigit)
    else firstDigitRun rest

/-- int() of a digit run. -/
def digitsToNat (run : List Char) : Nat :=
  run.foldl (fun acc c => acc * 10 + (c.toNat - 48)) 0

/-- Lines 268-274: max_points stays None when the cell text is empty or
holds no digits, and is the int value of the first digit run otherwise. -/
def extractPoints (txt : String) : Option Nat :=
  if txt = "" then none
  else
    match firstDigitRun txt.data with
    | [] => none
    | run => some (digitsToNat run)

/-- Lines 326-337: the record built for one scraped Jupiter row.
parsedDue stands for the stored result of parse_assignment_date on the
row's due-date text; the url is always empty for Jupiter. -/
def jupiterAssignment (dueDate name ptsText className desc : String)
    (parsedDue : Option String) : Assignment :=
  createAssignmentObject name className dueDate parsedDue "" desc
    (extractPoints ptsText)

/-! ### Consolidation orchestrator

get_all_assignments and main (tools/get_assignments.py, lines 44-89 and
160-194).  Each source extractor may raise; the orchestrator catches the
exception, substitutes an empty result and logs an ERROR, which the
shared collector turns into an entry of the payload's errors list.  A
source extractor's outcome is an Except value: ok with its record sets,
or error with the exception text. -/

/-- One source's extraction result. -/
structure SourceData where
  assigned : List Assignment
  missing : List Assignment
deriving DecidableEq

/-- The consolidated payload (assigned, missing, errors). -/
structure ConsolidatedPayload where
  assigned : List Assignment
  missing : List Assignment
  errors : List String
deriving DecidableEq

/-- The per-source try/except (lines 50-55 and 59-65): an extraction
failure contributes empty record sets and one collected ERROR message
(the log timestamp prefix is presentation and is omitted here). -/
def sourceOutcome (label : String) : Except String SourceData →
    SourceData × List String
  | .ok d => (d, [])
  | .error e => (⟨[], []⟩, ["Error extracting " ++ label ++ " assignments: " ++ e])

/-- get_all_assignments followed by main's error attachment: concatenate
both sources' lists, sort each, and attach the collected error messages.
The course-color file update performed between sorting and returning does
not touch the payload. -/
def getAllAssignments (g j : Except String SourceData) : ConsolidatedPayload :=
  let gr := sourceOutcome "Google Classroom" g
  let jr := sourceOutcome "Jupiter" j
  { assigned := sortAssignmentsByDate (gr.1.assigned ++ jr.1.assigned)
    missing := sortAssignmentsByDate (gr.1.missing ++ jr.1.missing)
    errors := gr.2 ++ jr.2 }

/-! ### Course color allocator

update_course_colors (tools/get_assignments.py, lines 91-158).  The
persisted JSON mapping is a Python dict from course name to a value such
as course-color-7; it is modelled as an association list in insertion
order (Python dicts preserve insertion order and new courses are
appended). -/

/-- parse_num (lines 123-125): re.search(r"course-color-(\d+)$", val).
The pattern anchors at the end of the string, so it matches exactly when
the value ends in one or more digits immediately preceded by the literal
course-color- text; the captured group is that digit run. -/
def parseNum (v : String) : Option Nat :=
  let rev := v.data.reverse
  let ds := rev.takeWhile (fun c => c.isDigit)
  if ds = [] then none
  else if startsWith (("course-color-".data).reverse) (rev.drop ds.length) then
    some (digitsToNat ds.reverse)
  else none

/-- Line 127: the set of slot numbers already used by the mapping's
values. -/
def usedNums (m : List (String × String)) : List Nat :=
  m.filterMap (fun p => parseNum p.2)

/-- next_number's while loop (lines 129-144), entered at n: return the
first n not in used, adding it to used; past 15, return 1 (also added,
possibly redundantly). -/
def nextNumberGo (used : List Nat) (n : Nat) : Nat × List Nat :=
  if n ∉ used then (n, n :: used)
  else if n + 1 > 15 then (1, 1 :: used)
  else nextNumberGo used (n + 1)
termination_by 16 - n
decreasing_by omega

/-- next_number: the loop starts at n = 1. -/
def nextNumber (used : List Nat) : Nat × List Nat :=
  nextNumberGo used 1

/-- The CSS class for a slot number. -/
def colorLabel (n : Nat) : String :=
  "course-color-" ++ toString n

/-- Lexicographic comparison of character lists by code point, the order
Python uses on strings. -/
def leChars : List Char → List Char → Bool
  | [], _ => true
  | _ :: _, [] => false
  | a :: as, b :: bs =>
    if a.toNat < b.toNat then true
    else if b.toNat < a.toNat then false
    else leChars as bs

/-- The case-insensitive alphabetical order used at line 110:
sorted(classes, key=lambda s: s.lower()), a stable sort comparing
lowercased names. -/
def ciLE (a b : String) : Prop :=
  leChars (lowerOf a.data) (lowerOf b.data) = true

instance : DecidableRel ciLE :=
  fun a b =>
    inferInstanceAs (Decidable (leChars (lowerOf a.data) (lowerOf b.data) = true))

/-- The sorted course list (stable sort by lowercased name). -/
def sortCI (classes : List String) : List String :=
  List.insertionSort ciLE classes

/-- The allocation loop (lines 147-150), folding over the sorted course
names with the evolving mapping and used set: a course already bound is
skipped, a new course is appended with the next allocated slot. -/
def allocStep (st : List (String × String) × List Nat) (cname : String) :
    List (String × String) × List Nat :=
  if (st.1.lookup cname).isSome then st
  else
    let nu := nextNumber st.2
    (st.1 ++ [(cname, colorLabel nu.1)], nu.2)

/-- update_course_colors on an already-loaded mapping and the current
run's course names (the surrounding file I/O loads the mapping before
and saves it after): the used set is computed once from the mapping,
courses are processed in case-insensitive alphabetical order, and only
absent courses receive new entries. -/
def updateCourseColors (m : List (String × String)) (classes : List String) :
    List (String × String) :=
  ((sortCI classes).foldl allocStep (m, usedNums m)).1

/-- The allocation rule in the claim's words: the lowest integer in
[1, 15] not already used, or 1 once all fifteen are used. -/
def minFree (used : List Nat) : Nat :=
  ((((List.range 15).map (fun i => i + 1)).filter
      (fun k => decide (k ∉ used))).headD 1)

/-- The new entries the claim describes: processing the given course
names in order, skipping those already bound (in the initial mapping or
earlier in the run), and labelling each new course with the lowest free
slot, which then becomes used. -/
def specNewEntries (ks : List String) (used : List Nat) :
    List String → List (String × String)
  | [] => []
  | c :: rest =>
    if c ∈ ks then specNewEntries ks used rest
    else
      let k := minFree used
      (c, colorLabel k) :: specNewEntries (c :: ks) (k :: used) rest

/-! ### Concrete records used in witnesses and counterexamples -/

/-- A record whose stored parse result is raw fallback text. -/
def demoRecRaw : Assignment :=
  createAssignmentObject "raw" "c1" "zzz" (some "zzz") "" "" (some 0)

/-- A record whose stored parse result is absent. -/
def demoRecAbsent : Assignment :=
  createAssignmentObject "absent" "c2" "Unknown" none "" "" (some 0)

/-- A record with a later valid canonical date. -/
def demoRecLater : Assignment :=
  createAssignmentObject "later" "c3" "March 6" (some "2025-03-06") "" "" (some 5)

/-- A record with an earlier valid canonical date. -/
def demoRecEarlier : Assignment :=
  createAssignmentObject "earlier" "c4" "March 5" (some "2025-03-05") "" "" (some 5)

/-- The four-record list of the sorter's test property. -/
def demoSortList : List Assignment :=
  [demoRecRaw, demoRecAbsent, demoRecLater, demoRecEarlier]

/-! ## Theorems -/

/-! ### Date normalizer: sentinel short-circuit (C6) and raw fallback (C7) -/

/-- C6: for every text that is empty, equals Unknown or No due date, or
contains the substring posted, no due date, or unknown case-insensitively,
the normalizer returns Absent for both values of the bias flag,
independently of today and of the external parser — nothing further is
consulted. -/
theorem C6_sentinel_absent (s : String) (isMissing : Bool) (today : Int)
    (ext : List Char → Int → Option Int)
    (h : s = "" ∨ s = "Unknown" ∨ s = "No due date" ∨
         isSub ("posted".data) (lowerOf s.data) = true ∨
         isSub ("no due date".data) (lowerOf s.data) = true ∨
         isSub ("unknown".data) (lowerOf s.data) = true) :
    parseAssignmentDate s isMissing today ext = .absent := by
  have habs : isEmptySentinel s = true ∨ hasSkipKeyword s = true := by
    rcases h with h | h | h | h | h | h
    · exact Or.inl (by simp [isEmptySentinel, h])
    · exact Or.inl (by simp [isEmptySentinel, h])
    · exact Or.inl (by simp [isEmptySentinel, h])
    · exact Or.inr (by simp [hasSkipKeyword, h])
    · exact Or.inr (by simp [hasSkipKeyword, h])
    · exact Or.inr (by simp [hasSkipKeyword, h])
  unfold parseAssignmentDate
  rcases habs with h' | h'
  · simp [h']
  · cases hE : isEmptySentinel s <;> simp [hE, h']

/-- Witness for C6 at the spec's own test inputs. -/
theorem C6_sentinel_absent_witness :
    parseAssignmentDate "posted 3 days ago" true 0 (fun _ _ => none) = .absent ∧
    parseAssignmentDate "posted 3 days ago" false 0 (fun _ _ => none) = .absent ∧
    parseAssignmentDate "" true 0 (fun _ _ => none) = .absent ∧
    parseAssignmentDate "Unknown" true 0 (fun _ _ => none) = .absent ∧
    parseAssignmentDate "No due date" true 0 (fun _ _ => none) = .absent := by
  refine ⟨?_, ?_, ?_, ?_, ?_⟩
  · exact C6_sentinel_absent _ _ _ _ (Or.inr (Or.inr (Or.inr (Or.inl (by decide)))))
  · exact C6_sentinel_absent _ _ _ _ (Or.inr (Or.inr (Or.inr (Or.inl (by decide)))))
  · exact C6_sentinel_absent _ _ _ _ (Or.inl rfl)
  · exact C6_sentinel_absent _ _ _ _ (Or.inr (Or.inl rfl))
  · exact C6_sentinel_absent _ _ _ _ (Or.inr (Or.inr (Or.inl rfl)))

/-- C7: on any input that passes the sentinel checks and on which the
relative-day step, the guarded weekday step and the external parser all
decline, the normalizer returns the original input text unmodified; being
a total function of its inputs, it returns a value (Absent, a canonical
date, or the original string) on every string input, and parse failure is
not an error. -/
theorem C7_raw_fallback (s : String) (isMissing : Bool) (today : Int)
    (ext : List Char → Int → Option Int)
    (h1 : isEmptySentinel s = false)
    (h2 : hasSkipKeyword s = false)
    (h3 : relativeDay (stripWS s.data) today = none)
    (h4 : weekdayResult (stripWS s.data) today isMissing = none)
    (h5 : ext (stripWS s.data) today = none) :
    parseAssignmentDate s isMissing today ext = .raw s := by
  unfold parseAssignmentDate
  simp [h1, h2, h3, h4, h5]

/-- Witness for C7 at the spec's own test input. -/
theorem C7_raw_fallback_witness :
    parseAssignmentDate "not a date at all, just words" true 0 (fun _ _ => none) =
      .raw "not a date at all, just words" :=
  C7_raw_fallback _ _ _ _ (by decide) (by decide) (by decide) (by decide) rfl

/-! ### Date normalizer: weekday resolution (C2) -/

/-- The weekday index the normalizer finds is in range. -/
theorem findWeekday_le_six (lcl : List Char) (w : Nat)
    (h : findWeekday lcl = some w) : w ≤ 6 := by
  unfold findWeekday at h
  split_ifs at h <;> simp_all <;> omega

/-- C2: on any text that passes the sentinel checks, triggers no
relative-day keyword, contains no month name and no date-shaped numeric
token (per the code's guard), and contains a weekday name (the first
match in list order being index w), the normalizer with the past bias
returns the canonical date of the most recent day of that weekday
strictly before today — exactly 7 days ago when today is that weekday,
never today — and with the future bias the next such day strictly after
today — exactly 7 days ahead when today is that weekday, never today. -/
theorem C2_weekday_resolution (s : String) (today : Int) (w : Nat)
    (ext : List Char → Int → Option Int)
    (h1 : isEmptySentinel s = false)
    (h2 : hasSkipKeyword s = false)
    (h3 : relativeDay (stripWS s.data) today = none)
    (h4 : hasMonth (lowerOf (stripWS s.data)) = false)
    (h5 : hasDateNumbers (lowerOf (stripWS s.data)) = false)
    (h6 : findWeekday (lowerOf (stripWS s.data)) = some w) :
    ∃ dPast dNext : Int,
      parseAssignmentDate s true today ext = .canonical dPast ∧
      dPast < today ∧ today - dPast ≤ 7 ∧ pyWeekday dPast = (w : Int) ∧
      (∀ e : Int, e < today → pyWeekday e = (w : Int) → e ≤ dPast) ∧
      (pyWeekday today = (w : Int) → dPast = today - 7) ∧
      parseAssignmentDate s false today ext = .canonical dNext ∧
      today < dNext ∧ dNext - today ≤ 7 ∧ pyWeekday dNext = (w : Int) ∧
      (∀ e : Int, today < e → pyWeekday e = (w : Int) → dNext ≤ e) ∧
      (pyWeekday today = (w : Int) → dNext = today + 7) := by
  have hw6 : w ≤ 6 := findWeekday_le_six _ _ h6
  have hres : ∀ b : Bool,
      parseAssignmentDate s b today ext = .canonical (weekdayDate w today b) := by
    intro b
    unfold parseAssignmentDate
    simp only [h1, h2, h3, Bool.false_eq_true, if_false]
    have hwr : weekdayResult (stripWS s.data) today b =
        some (weekdayDate w today b) := by
      unfold weekdayResult
      simp [h4, h5, h6]
    simp [hwr]
  have hdp : weekdayDate w today true =
      today - (if (pyWeekday today - (w : Int)) % 7 = 0 then 7
               else (pyWeekday today - (w : Int)) % 7) := by
    simp [weekdayDate]
  have hdn : weekdayDate w today false =
      today + (if ((w : Int) - pyWeekday today) % 7 = 0 then 7
               else ((w : Int) - pyWeekday today) % 7) := by
    simp [weekdayDate]
  refine ⟨weekdayDate w today true, weekdayDate w today false,
    hres true, ?_, ?_, ?_, ?_, ?_, hres false, ?_, ?_, ?_, ?_, ?_⟩
  · rw [hdp]; simp only [pyWeekday]; split_ifs <;> omega
  · rw [hdp]; simp only [pyWeekday]; split_ifs <;> omega
  · rw [hdp]; simp only [pyWeekday]; split_ifs <;> omega
  · intro e he hwe
    rw [hdp]; simp only [pyWeekday] at hwe ⊢; split_ifs <;> omega
  · intro hsame
    rw [hdp]; simp only [pyWeekday] at hsame ⊢; split_ifs <;> omega
  · rw [hdn]; simp only [pyWeekday]; split_ifs <;> omega
  · rw [hdn]; simp only [pyWeekday]; split_ifs <;> omega
  · rw [hdn]; simp only [pyWeekday]; split_ifs <;> omega
  · intro e he hwe
    rw [hdn]; simp only [pyWeekday] at hwe ⊢; split_ifs <;> omega
  · intro hsame
    rw [hdn]; simp only [pyWeekday] at hsame ⊢; split_ifs <;> omega

/-- Witness for C2: today is day ordinal 20000 (a Friday); the text
Friday resolves to 19993 with the past bias and 20007 with the future
bias. -/
theorem C2_weekday_resolution_witness :
    ∃ dPast dNext : Int,
      parseAssignmentDate "Friday" true 20000 (fun _ _ => none) =
        .canonical dPast ∧
      dPast < 20000 ∧ 20000 - dPast ≤ 7 ∧ pyWeekday dPast = (4 : Int) ∧
      parseAssignmentDate "Friday" false 20000 (fun _ _ => none) =
        .canonical dNext ∧
      20000 < dNext ∧ dNext - 20000 ≤ 7 ∧ pyWeekday dNext = (4 : Int) := by
  obtain ⟨dP, dN, e1, e2, e3, e4, _, _, f1, f2, f3, f4, _, _⟩ :=
    C2_weekday_resolution "Friday" 20000 4 (fun _ _ => none)
      (by decide) (by decide) (by decide) (by decide) (by decide) (by decide)
  exact ⟨dP, dN, e1, e2, e3, e4, f1, f2, f3, f4⟩

/-! ### Deduplication (C1, C10) -/

/-- The filtering loop keeps an order-preserving subset of the
candidates. -/
theorem dedupeGo_sublist (seen : List String) (l : List Assignment) :
    (dedupeGo seen l).Sublist l := by
  induction l generalizing seen with
  | nil => simp [dedupeGo]
  | cons c rest ih =>
    unfold dedupeGo
    split_ifs with h
    · exact (ih _).cons₂ c
    · exact (ih seen).cons c

/-- Every accepted candidate's keys avoid the initial seen set. -/
theorem dedupeGo_not_seen (seen : List String) (l : List Assignment) :
    ∀ x ∈ dedupeGo seen l, x.url ∉ seen ∧ nck x ∉ seen := by
  induction l generalizing seen with
  | nil => simp [dedupeGo]
  | cons c rest ih =>
    intro x hx
    unfold dedupeGo at hx
    split_ifs at hx with h
    · rcases List.mem_cons.mp hx with rfl | hx'
      · exact h
      · have hb := ih _ x hx'
        exact ⟨fun hm => hb.1 (by simp [hm]), fun hm => hb.2 (by simp [hm])⟩
    · exact ih seen x hx

/-- Unfolding the loop one candidate at a time. -/
theorem dedupeGo_cons (seen : List String) (c : Assignment)
    (rest : List Assignment) :
    dedupeGo seen (c :: rest) =
      if c.url ∉ seen ∧ nck c ∉ seen then
        c :: dedupeGo (nck c :: c.url :: seen) rest
      else dedupeGo seen rest :=
  rfl

/-- Unfolding the seen-set recursion one candidate at a time. -/
theorem seenAfter_cons (seen : List String) (c : Assignment)
    (rest : List Assignment) :
    seenAfter seen (c :: rest) =
      if c.url ∉ seen ∧ nck c ∉ seen then
        seenAfter (nck c :: c.url :: seen) rest
      else seenAfter seen rest :=
  rfl

/-- Either key of a record is one of its two keys. -/
theorem mem_recKeys (a : Assignment) (k : String) :
    k ∈ recKeys a ↔ k = a.url ∨ k = nck a := by
  simp [recKeys]

/-- The loop processes an appended list left to right, with the seen set
carried across the boundary. -/
theorem dedupeGo_append (seen : List String) (l1 l2 : List Assignment) :
    dedupeGo seen (l1 ++ l2) =
      dedupeGo seen l1 ++ dedupeGo (seenAfter seen l1) l2 := by
  induction l1 generalizing seen with
  | nil => simp [dedupeGo, seenAfter]
  | cons c rest ih =>
    simp only [List.cons_append]
    rw [dedupeGo_cons, dedupeGo_cons, seenAfter_cons]
    split_ifs with h
    · simp [ih]
    · exact ih seen

/-- Membership in the final seen set: the initial keys plus both keys of
every accepted candidate. -/
theorem seenAfter_mem (seen : List String) (l : List Assignment) (k : String) :
    k ∈ seenAfter seen l ↔
      k ∈ seen ∨ ∃ y ∈ dedupeGo seen l, k ∈ recKeys y := by
  induction l generalizing seen with
  | nil => simp [seenAfter, dedupeGo]
  | cons c rest ih =>
    rw [seenAfter_cons, dedupeGo_cons]
    split_ifs with h
    · rw [ih]
      constructor
      · rintro (hk | ⟨y, hy, hky⟩)
        · rcases List.mem_cons.mp hk with rfl | hk2
          · exact Or.inr ⟨c, List.mem_cons_self _ _, by simp [mem_recKeys]⟩
          · rcases List.mem_cons.mp hk2 with rfl | hk3
            · exact Or.inr ⟨c, List.mem_cons_self _ _, by simp [mem_recKeys]⟩
            · exact Or.inl hk3
        · exact Or.inr ⟨y, List.mem_cons_of_mem _ hy, hky⟩
      · rintro (hk | ⟨y, hy, hky⟩)
        · exact Or.inl (by simp [hk])
        · rcases List.mem_cons.mp hy with rfl | hy2
          · rcases (mem_recKeys _ _).mp hky with rfl | rfl
            · exact Or.inl (by simp)
            · exact Or.inl (by simp)
          · exact Or.inr ⟨y, hy2, hky⟩
    · exact ih seen

/-- No two accepted candidates share a key. -/
theorem dedupeGo_pairwise (seen : List String) (l : List Assignment) :
    (dedupeGo seen l).Pairwise
      (fun a b => ∀ k ∈ recKeys a, k ∉ recKeys b) := by
  induction l generalizing seen with
  | nil => simp [dedupeGo]
  | cons c rest ih =>
    rw [dedupeGo_cons]
    split_ifs with h
    · refine List.Pairwise.cons ?_ (ih _)
      intro y hy k hkc hky
      have hb := dedupeGo_not_seen _ _ y hy
      have hkc' := (mem_recKeys _ _).mp hkc
      rcases (mem_recKeys _ _).mp hky with rfl | rfl
      · exact hb.1 (by rcases hkc' with h2 | h2 <;> simp [h2])
      · exact hb.2 (by rcases hkc' with h2 | h2 <;> simp [h2])
    · exact ih seen

/-- The one-candidate step of the loop. -/
theorem dedupeGo_singleton (seen : List String) (x : Assignment) :
    dedupeGo seen [x] =
      if x.url ∉ seen ∧ nck x ∉ seen then [x] else [] := by
  unfold dedupeGo
  split_ifs <;> simp [dedupeGo]

/-- The acceptance condition at the moment a candidate is tested, read
through the seen-set characterization. -/
theorem seen_cond_iff (p pre : List Assignment) (x : Assignment) :
    (x.url ∉ seenAfter (primKeys p) pre ∧
     nck x ∉ seenAfter (primKeys p) pre) ↔
      (x.url ∉ primKeys p ∧ nck x ∉ primKeys p ∧
       ∀ y ∈ dedupeMissing p pre,
         x.url ∉ recKeys y ∧ nck x ∉ recKeys y) := by
  constructor
  · rintro ⟨hu, hn⟩
    rw [seenAfter_mem] at hu hn
    push_neg at hu hn
    exact ⟨hu.1, hn.1, fun y hy => ⟨hu.2 y hy, hn.2 y hy⟩⟩
  · rintro ⟨h1, h2, h3⟩
    constructor
    · rw [seenAfter_mem]; push_neg
      exact ⟨h1, fun y hy => (h3 y hy).1⟩
    · rw [seenAfter_mem]; push_neg
      exact ⟨h2, fun y hy => (h3 y hy).2⟩

/-- C1 as stated fails on the code: with a primary record whose url is
empty, a candidate with empty url but different name and class is
excluded by the code (the empty url key is in the seen set), while the
claim's described filter keeps it. -/
theorem C1_dedupe_counterexample :
    dedupeMissing [recEmptyUrlA] [recEmptyUrlB] ≠
      specDedupeC1 [recEmptyUrlA] [recEmptyUrlB] := by
  decide

/-- C1 amended: the deduplication returns exactly those candidates, in
input order, whose url key — counted even when the url is empty — and
composite key both fail to appear in the seen set, which initially holds
every primary record's url (empty included) and composite key, and which
grows by both keys of each accepted candidate: the result is an
order-preserving subset of the candidates, none of whose members matches
a primary key; processing a longer candidate list extends the result of
a shorter one; and a candidate at any position is kept exactly when its
two keys avoid the primary keys and the keys of every earlier accepted
candidate, and is dropped otherwise. -/
theorem C1_dedupe_amended (p : List Assignment) :
    (∀ c : List Assignment, (dedupeMissing p c).Sublist c) ∧
    (∀ c : List Assignment, ∀ r ∈ dedupeMissing p c,
      r.url ∉ primKeys p ∧ nck r ∉ primKeys p) ∧
    (∀ c1 c2 : List Assignment, ∃ t,
      dedupeMissing p (c1 ++ c2) = dedupeMissing p c1 ++ t) ∧
    (∀ (pre : List Assignment) (x : Assignment),
      dedupeMissing p (pre ++ [x]) = dedupeMissing p pre ++ [x] ↔
        (x.url ∉ primKeys p ∧ nck x ∉ primKeys p ∧
         ∀ y ∈ dedupeMissing p pre,
           x.url ∉ recKeys y ∧ nck x ∉ recKeys y)) ∧
    (∀ (pre : List Assignment) (x : Assignment),
      ¬(x.url ∉ primKeys p ∧ nck x ∉ primKeys p ∧
        ∀ y ∈ dedupeMissing p pre,
          x.url ∉ recKeys y ∧ nck x ∉ recKeys y) →
      dedupeMissing p (pre ++ [x]) = dedupeMissing p pre) := by
  refine ⟨fun c => dedupeGo_sublist _ c,
          fun c => dedupeGo_not_seen _ c, ?_, ?_, ?_⟩
  · intro c1 c2
    exact ⟨dedupeGo (seenAfter (primKeys p) c1) c2, dedupeGo_append _ c1 c2⟩
  · intro pre x
    rw [← seen_cond_iff p pre x]
    unfold dedupeMissing
    rw [dedupeGo_append, dedupeGo_singleton]
    constructor
    · intro heq
      by_contra hcond
      rw [if_neg hcond] at heq
      have := List.append_cancel_left heq
      simp at this
    · intro hcond
      rw [if_pos hcond]
  · intro pre x hcond
    rw [← seen_cond_iff p pre x] at hcond
    unfold dedupeMissing
    rw [dedupeGo_append, dedupeGo_singleton, if_neg hcond, List.append_nil]

/-- Witness for the amended C1: with an empty-url primary record, the
empty-url candidate is dropped. -/
theorem C1_dedupe_amended_witness :
    dedupeMissing [recEmptyUrlA] ([] ++ [recEmptyUrlB]) =
      dedupeMissing [recEmptyUrlA] [] :=
  (C1_dedupe_amended [recEmptyUrlA]).2.2.2.2 [] recEmptyUrlB
    (fun hc => hc.1 (by decide))

/-- C10: the Done-tab merge deduplicates the candidate list against
itself: no two appended records share any identity key, and a later
candidate sharing a key with an earlier accepted candidate is dropped,
even when the primary list is empty. -/
theorem C10_done_self_dedup (p : List Assignment) :
    (∀ c : List Assignment, (dedupeMissing p c).Pairwise
      (fun a b => ∀ k ∈ recKeys a, k ∉ recKeys b)) ∧
    (∀ (pre : List Assignment) (x : Assignment) (post : List Assignment),
      (∃ y ∈ dedupeMissing p pre, x.url ∈ recKeys y ∨ nck x ∈ recKeys y) →
      dedupeMissing p (pre ++ x :: post) = dedupeMissing p (pre ++ post)) := by
  refine ⟨fun c => dedupeGo_pairwise _ c, ?_⟩
  intro pre x post hdup
  unfold dedupeMissing
  rw [dedupeGo_append _ pre (x :: post), dedupeGo_append _ pre post]
  congr 1
  have hcond : ¬(x.url ∉ seenAfter (primKeys p) pre ∧
      nck x ∉ seenAfter (primKeys p) pre) := by
    rintro ⟨hu, hn⟩
    obtain ⟨y, hy, hk⟩ := hdup
    rcases hk with hk | hk
    · exact hu ((seenAfter_mem _ _ _).mpr (Or.inr ⟨y, hy, hk⟩))
    · exact hn ((seenAfter_mem _ _ _).mpr (Or.inr ⟨y, hy, hk⟩))
  rw [dedupeGo_cons, if_neg hcond]

/-- Witness for C10: a duplicate of an already-accepted candidate is
dropped with an empty primary list. -/
theorem C10_done_self_dedup_witness :
    dedupeMissing [] ([recEmptyUrlA] ++ recEmptyUrlA :: []) =
      dedupeMissing [] ([recEmptyUrlA] ++ []) :=
  (C10_done_self_dedup []).2 [recEmptyUrlA] recEmptyUrlA []
    ⟨recEmptyUrlA, by decide, Or.inl (by decide)⟩

/-! ### Jupiter record points (C9) -/

/-- The first digit run is empty exactly when the text has no digit. -/
theorem firstDigitRun_eq_nil (l : List Char) :
    firstDigitRun l = [] ↔ ∀ c ∈ l, c.isDigit = false := by
  induction l with
  | nil => simp [firstDigitRun]
  | cons c rest ih =>
    unfold firstDigitRun
    split_ifs with h
    · simp [h]
    · simp only [List.mem_cons, ih]
      constructor
      · intro hall d hd
        rcases hd with rfl | hd
        · simpa using h
        · exact hall d hd
      · intro hall d hd
        exact hall d (Or.inr hd)

/-- C9 as stated fails on the code: a Jupiter row whose points cell is
empty is built with max_points None, not the integer 0. -/
theorem C9_points_counterexample :
    ¬ ∃ n : Nat,
      (jupiterAssignment "Monday" "HW 1" "" "Math" ""
        (some "2025-03-03")).max_points = some n := by
  rintro ⟨n, hn⟩
  rw [show (jupiterAssignment "Monday" "HW 1" "" "Math" ""
      (some "2025-03-03")).max_points = none from by decide] at hn
  exact Option.noConfusion hn

/-- C9 amended: a record built from a scraped Jupiter row carries
max_points equal to the points-cell extraction: None exactly when the
cell text contains no digit (in particular when it is empty), and
otherwise the non-negative integer value of the leftmost digit run.  The
builder's default of 0 applies only when the argument is omitted, and
the Jupiter scraper always passes its own value. -/
theorem C9_points_amended (dueDate name ptsText className desc : String)
    (parsedDue : Option String) :
    (jupiterAssignment dueDate name ptsText className desc
        parsedDue).max_points = extractPoints ptsText ∧
    (extractPoints ptsText = none ↔ ∀ c ∈ ptsText.data, c.isDigit = false) := by
  refine ⟨rfl, ?_⟩
  unfold extractPoints
  split_ifs with h
  · subst h
    simp [String.data]
  · constructor
    · intro hnone
      cases hrun : firstDigitRun ptsText.data with
      | nil => exact (firstDigitRun_eq_nil _).mp hrun
      | cons a t => simp [hrun] at hnone
    · intro hall
      rw [(firstDigitRun_eq_nil _).mpr hall]

/-- Witness for the amended C9 at a points cell holding 10 pts. -/
theorem C9_points_amended_witness :
    (jupiterAssignment "Friday" "HW 2" "10 pts" "Math" ""
        none).max_points = extractPoints "10 pts" ∧
    extractPoints "10 pts" = some 10 :=
  ⟨(C9_points_amended "Friday" "HW 2" "10 pts" "Math" "" none).1, by decide⟩

/-! ### Consolidation orchestrator (C8) -/

/-- C8: when exactly one source extractor raises, the run is not
aborted: the failing source contributes empty lists, the payload's
assigned and missing lists are permutations of the surviving source's
lists (they are its records, sorted), and the errors array is
non-empty.  Both one-failure cases are covered. -/
theorem C8_single_source_failure (gd jd : SourceData) (e : String) :
    ((getAllAssignments (.ok gd) (.error e)).assigned.Perm gd.assigned ∧
     (getAllAssignments (.ok gd) (.error e)).missing.Perm gd.missing ∧
     (getAllAssignments (.ok gd) (.error e)).errors ≠ []) ∧
    ((getAllAssignments (.error e) (.ok jd)).assigned.Perm jd.assigned ∧
     (getAllAssignments (.error e) (.ok jd)).missing.Perm jd.missing ∧
     (getAllAssignments (.error e) (.ok jd)).errors ≠ []) := by
  refine ⟨⟨?_, ?_, ?_⟩, ⟨?_, ?_, ?_⟩⟩
  · have h : (getAllAssignments (.ok gd) (.error e)).assigned =
        sortAssignmentsByDate (gd.assigned ++ []) := rfl
    rw [h, List.append_nil]
    exact List.perm_insertionSort keyLE gd.assigned
  · have h : (getAllAssignments (.ok gd) (.error e)).missing =
        sortAssignmentsByDate (gd.missing ++ []) := rfl
    rw [h, List.append_nil]
    exact List.perm_insertionSort keyLE gd.missing
  · simp [getAllAssignments, sourceOutcome]
  · have h : (getAllAssignments (.error e) (.ok jd)).assigned =
        sortAssignmentsByDate ([] ++ jd.assigned) := rfl
    rw [h, List.nil_append]
    exact List.perm_insertionSort keyLE jd.assigned
  · have h : (getAllAssignments (.error e) (.ok jd)).missing =
        sortAssignmentsByDate ([] ++ jd.missing) := rfl
    rw [h, List.nil_append]
    exact List.perm_insertionSort keyLE jd.missing
  · simp [getAllAssignments, sourceOutcome]

/-! ### Chronological sorter (C3): parser lemmas -/

/-- Reading back a rendered digit. -/
theorem readDigit_digitChar (k : Nat) (hk : k ≤ 9) :
    readDigit (digitChar k) = some k := by
  interval_cases k <;> decide

/-- A read digit is at most 9. -/
theorem readDigit_le (c : Char) (x : Nat) (h : readDigit c = some x) :
    x ≤ 9 := by
  unfold readDigit at h
  split_ifs at h with hc
  simp only [Option.some.injEq] at h
  omega

/-- Reading back a two-digit rendering. -/
theorem read2_pad2 (n : Nat) (hn : n ≤ 99) (rest : List Char) :
    read2 (pad2 n ++ rest) = some (n, rest) := by
  have h1 : n / 10 % 10 ≤ 9 := by omega
  have h2 : n % 10 ≤ 9 := by omega
  have e1 := readDigit_digitChar _ h1
  have e2 := readDigit_digitChar _ h2
  have : 10 * (n / 10 % 10) + n % 10 = n := by omega
  simp only [pad2, List.cons_append, List.nil_append, read2, e1, e2, this]

/-- Reading back a four-digit rendering. -/
theorem read4_pad4 (n : Nat) (hn : n ≤ 9999) (rest : List Char) :
    read4 (pad4 n ++ rest) = some (n, rest) := by
  have h1 : n / 1000 % 10 ≤ 9 := by omega
  have h2 : n / 100 % 10 ≤ 9 := by omega
  have h3 : n / 10 % 10 ≤ 9 := by omega
  have h4 : n % 10 ≤ 9 := by omega
  have e1 := readDigit_digitChar _ h1
  have e2 := readDigit_digitChar _ h2
  have e3 := readDigit_digitChar _ h3
  have e4 := readDigit_digitChar _ h4
  have hsum : 1000 * (n / 1000 % 10) + 100 * (n / 100 % 10) +
      10 * (n / 10 % 10) + n % 10 = n := by omega
  simp only [pad4, List.cons_append, List.nil_append, read4, e1, e2, e3, e4,
    hsum]

/-- The expected character is consumed. -/
theorem expectChar_cons (c : Char) (l : List Char) :
    expectChar c (c :: l) = some l := by
  simp [expectChar]

/-- A two-digit read is at most 99. -/
theorem read2_bound (cs : List Char) (x : Nat) (r : List Char)
    (h : read2 cs = some (x, r)) : x ≤ 99 := by
  match cs with
  | [] => exact absurd h (by simp [read2])
  | [a] => exact absurd h (by simp [read2])
  | a :: b :: t =>
    unfold read2 at h
    cases ha : readDigit a with
    | none => simp [ha] at h
    | some xa =>
      cases hb : readDigit b with
      | none => simp [ha, hb] at h
      | some xb =>
        simp only [ha, hb, Option.some.injEq, Prod.mk.injEq] at h
        have := readDigit_le a xa ha
        have := readDigit_le b xb hb
        omega

/-- A four-digit read is at most 9999. -/
theorem read4_bound (cs : List Char) (x : Nat) (r : List Char)
    (h : read4 cs = some (x, r)) : x ≤ 9999 := by
  match cs with
  | [] => exact absurd h (by simp [read4])
  | [a] => exact absurd h (by simp [read4])
  | [a, b] => exact absurd h (by simp [read4])
  | [a, b, c] => exact absurd h (by simp [read4])
  | a :: b :: c :: d :: t =>
    unfold read4 at h
    cases ha : readDigit a with
    | none => simp [ha] at h
    | some xa =>
      cases hb : readDigit b with
      | none => simp [ha, hb] at h
      | some xb =>
        cases hc : readDigit c with
        | none => simp [ha, hb, hc] at h
        | some xc =>
          cases hd : readDigit d with
          | none => simp [ha, hb, hc, hd] at h
          | some xd =>
            simp only [ha, hb, hc, hd, Option.some.injEq, Prod.mk.injEq] at h
            have := readDigit_le a xa ha
            have := readDigit_le b xb hb
            have := readDigit_le c xc hc
            have := readDigit_le d xd hd
            omega

/-- Month lengths never exceed 31. -/
theorem daysInMonth_le (y m : Nat) : daysInMonth y m ≤ 31 := by
  unfold daysInMonth
  split_ifs <;> omega

/-- The timestamp encoding of any value in datetime's component ranges,
with zero microseconds, is below the sentinel. -/
theorem encTs_lt_dtMax (y m d h mi s : Nat) (hy : y ≤ 9999) (hm : m ≤ 12)
    (hd : d ≤ 31) (hh : h ≤ 23) (hmi : mi ≤ 59) (hs : s ≤ 59) :
    encTs y m d h mi s 0 < dtMax := by
  unfold encTs dtMax
  simp only [encTs]
  omega

/-- Any value the time-part parser returns is below the sentinel. -/
theorem parseTimePart_bound (y m d : Nat) (t : List Char) (n : Nat)
    (hy : y ≤ 9999) (hm : m ≤ 12) (hd : d ≤ 31)
    (h : parseTimePart y m d t = some n) : n < dtMax := by
  unfold parseTimePart at h
  cases h1 : read2 t with
  | none => simp [h1] at h
  | some hr =>
    obtain ⟨hrv, r1⟩ := hr
    cases h2 : expectChar ':' r1 with
    | none => simp [h1, h2] at h
    | some r2 =>
      cases h3 : read2 r2 with
      | none => simp [h1, h2, h3] at h
      | some mir =>
        obtain ⟨miv, r3⟩ := mir
        cases h4 : expectChar ':' r3 with
        | none => simp [h1, h2, h3, h4] at h
        | some r4 =>
          cases h5 : read2 r4 with
          | none => simp [h1, h2, h3, h4, h5] at h
          | some ser =>
            obtain ⟨sev, r5⟩ := ser
            simp only [h1, h2, h3, h4, h5, Option.some_bind] at h
            split_ifs at h with hc
            simp only [Option.some.injEq] at h
            subst h
            exact encTs_lt_dtMax y m d hrv miv sev hy hm hd
              hc.2.1 hc.2.2.1 hc.2.2.2

/-- Any value the ISO parser returns is below the sentinel. -/
theorem isoParse_lt_dtMax (cs : List Char) (n : Nat)
    (h : isoParse cs = some n) : n < dtMax := by
  unfold isoParse at h
  cases h1 : read4 cs with
  | none => simp [h1] at h
  | some yr =>
    obtain ⟨yv, r1⟩ := yr
    cases h2 : expectChar '-' r1 with
    | none => simp [h1, h2] at h
    | some r2 =>
      cases h3 : read2 r2 with
      | none => simp [h1, h2, h3] at h
      | some mr =>
        obtain ⟨mv, r3⟩ := mr
        cases h4 : expectChar '-' r3 with
        | none => simp [h1, h2, h3, h4] at h
        | some r4 =>
          cases h5 : read2 r4 with
          | none => simp [h1, h2, h3, h4, h5] at h
          | some dr =>
            obtain ⟨dv, r5⟩ := dr
            simp only [h1, h2, h3, h4, h5, Option.some_bind] at h
            have hy := read4_bound cs yv r1 h1
            split_ifs at h with hc hnil hT
            · have hm : mv ≤ 12 := hc.2.2.1
              have hd : dv ≤ 31 :=
                le_trans hc.2.2.2.2 (daysInMonth_le yv mv)
              simp only [Option.some.injEq] at h
              subst h
              exact encTs_lt_dtMax yv mv dv 0 0 0 hy hm hd
                (by omega) (by omega) (by omega)
            · have hm : mv ≤ 12 := hc.2.2.1
              have hd : dv ≤ 31 :=
                le_trans hc.2.2.2.2 (daysInMonth_le yv mv)
              exact parseTimePart_bound yv mv dv r5.tail n hy hm hd h

/-- A digit character is never T. -/
theorem T_ne_digitChar (k : Nat) : ('T' = digitChar k) ↔ False := by
  unfold digitChar
  split <;> decide

/-- The rendered date contains no T. -/
theorem hasT_formatYMD (y m d : Nat) : hasT (formatYMD y m d) = false := by
  have hfd : (formatYMD y m d).data =
      pad4 y ++ '-' :: pad2 m ++ '-' :: pad2 d := rfl
  simp [hasT, hfd, pad4, pad2, T_ne_digitChar]

/-- The rendered timestamp contains a T. -/
theorem hasT_formatYMDHMS (y m d h mi s : Nat) :
    hasT (formatYMDHMS y m d h mi s) = true := by
  have hfd : (formatYMDHMS y m d h mi s).data =
      pad4 y ++ '-' :: pad2 m ++ '-' :: pad2 d ++ 'T' ::
        (pad2 h ++ ':' :: pad2 mi ++ ':' :: pad2 s) := rfl
  simp [hasT, hfd, pad4, pad2]

/-- The rendered date is not the empty string. -/
theorem formatYMD_ne_empty (y m d : Nat) : formatYMD y m d ≠ "" := by
  intro h
  have := congrArg String.data h
  simp [show (formatYMD y m d).data =
    pad4 y ++ '-' :: pad2 m ++ '-' :: pad2 d from rfl, pad4, pad2] at this

/-- The rendered timestamp is not the empty string. -/
theorem formatYMDHMS_ne_empty (y m d h mi s : Nat) :
    formatYMDHMS y m d h mi s ≠ "" := by
  intro hc
  have := congrArg String.data hc
  simp [show (formatYMDHMS y m d h mi s).data =
      pad4 y ++ '-' :: pad2 m ++ '-' :: pad2 d ++ 'T' ::
        (pad2 h ++ ':' :: pad2 mi ++ ':' :: pad2 s) from rfl,
    pad4, pad2] at this

/-- The time-part parser on the rendered HH:MM:SS tail. -/
theorem parseTimePart_pads (y m d h mi s : Nat)
    (hh : h ≤ 23) (hmi : mi ≤ 59) (hs : s ≤ 59) :
    parseTimePart y m d (pad2 h ++ ':' :: pad2 mi ++ ':' :: pad2 s) =
      some (encTs y m d h mi s 0) := by
  unfold parseTimePart
  simp only [List.cons_append, List.append_assoc]
  rw [read2_pad2 h (by omega)]
  simp only [Option.some_bind]
  rw [expectChar_cons]
  simp only [Option.some_bind]
  rw [read2_pad2 mi (by omega)]
  simp only [Option.some_bind]
  rw [expectChar_cons]
  simp only [Option.some_bind]
  rw [← List.append_nil (pad2 s), read2_pad2 s (by omega)]
  simp only [Option.some_bind]
  rw [if_pos ⟨trivial, hh, hmi, hs⟩]

/-- The ISO parser on the rendered date with the end-of-day time
appended, as the sorter builds it. -/
theorem isoParse_formatYMD (y m d : Nat) (h : ValidDate y m d) :
    isoParse ((formatYMD y m d ++ "T23:59:59").data) =
      some (encTs y m d 23 59 59 0) := by
  obtain ⟨hy1, hy2, hm1, hm2, hd1, hd2⟩ := h
  rw [String.data_append]
  have hfd : (formatYMD y m d).data =
      pad4 y ++ '-' :: pad2 m ++ '-' :: pad2 d := rfl
  have ht : ("T23:59:59" : String).data =
      'T' :: ('2' :: '3' :: []) ++ ':' :: ('5' :: '9' :: []) ++
        ':' :: ('5' :: '9' :: []) := rfl
  have h23 : ('2' :: '3' :: []) = pad2 23 := rfl
  have h59 : ('5' :: '9' :: []) = pad2 59 := rfl
  rw [hfd, ht, h23, h59]
  unfold isoParse
  simp only [List.append_assoc, List.cons_append, List.nil_append]
  rw [read4_pad4 y (by omega)]
  simp only [Option.some_bind]
  rw [expectChar_cons]
  simp only [Option.some_bind]
  rw [read2_pad2 m (by omega)]
  simp only [Option.some_bind]
  rw [expectChar_cons]
  simp only [Option.some_bind]
  rw [read2_pad2 d (by have := daysInMonth_le y m; omega)]
  simp only [Option.some_bind]
  rw [if_pos ⟨hy1, hm1, hm2, hd1, hd2⟩]
  simp only [List.head?_cons, List.tail_cons, reduceCtorEq, if_false,
    Option.some.injEq, reduceIte]
  exact parseTimePart_pads y m d 23 59 59 (by omega) (by omega) (by omega)

/-- The ISO parser on the rendered full timestamp. -/
theorem isoParse_formatYMDHMS (y m d h mi s : Nat) (hv : ValidDate y m d)
    (hh : h ≤ 23) (hmi : mi ≤ 59) (hs : s ≤ 59) :
    isoParse ((formatYMDHMS y m d h mi s).data) =
      some (encTs y m d h mi s 0) := by
  obtain ⟨hy1, hy2, hm1, hm2, hd1, hd2⟩ := hv
  have hfd : (formatYMDHMS y m d h mi s).data =
      pad4 y ++ '-' :: pad2 m ++ '-' :: pad2 d ++ 'T' ::
        (pad2 h ++ ':' :: pad2 mi ++ ':' :: pad2 s) := rfl
  rw [hfd]
  unfold isoParse
  simp only [List.append_assoc, List.cons_append, List.nil_append]
  rw [read4_pad4 y (by omega)]
  simp only [Option.some_bind]
  rw [expectChar_cons]
  simp only [Option.some_bind]
  rw [read2_pad2 m (by omega)]
  simp only [Option.some_bind]
  rw [expectChar_cons]
  simp only [Option.some_bind]
  rw [read2_pad2 d (by have := daysInMonth_le y m; omega)]
  simp only [Option.some_bind]
  rw [if_pos ⟨hy1, hm1, hm2, hd1, hd2⟩]
  simp only [List.head?_cons, List.tail_cons, reduceCtorEq, if_false,
    Option.some.injEq, reduceIte]
  exact parseTimePart_pads y m d h mi s hh hmi hs

/-! ### Chronological sorter (C3): sort key characterization -/

/-- A record with no stored parse result gets the sentinel key. -/
theorem getSortKey_none (r : Assignment) (h : r.due_date_parsed = none) :
    getSortKey r = dtMax := by
  simp [getSortKey, h]

/-- A record with an empty stored parse result gets the sentinel key. -/
theorem getSortKey_empty (r : Assignment) (h : r.due_date_parsed = some "") :
    getSortKey r = dtMax := by
  simp [getSortKey, h]

/-- A record whose stored value fromisoformat rejects gets the sentinel
key. -/
theorem getSortKey_fail (r : Assignment) (s : String)
    (h : r.due_date_parsed = some s) (hs : s ≠ "")
    (hp : isoParse (isoInput s) = none) : getSortKey r = dtMax := by
  simp [getSortKey, h, hs, hp]

/-- A record with a valid canonical date sorts by end of that day. -/
theorem getSortKey_valid (r : Assignment) (y m d : Nat)
    (hv : ValidDate y m d)
    (h : r.due_date_parsed = some (formatYMD y m d)) :
    getSortKey r = encTs y m d 23 59 59 0 := by
  have hne := formatYMD_ne_empty y m d
  have hT := hasT_formatYMD y m d
  have hiso : isoParse ((formatYMD y m d).data ++
      ['T', '2', '3', ':', '5', '9', ':', '5', '9']) =
      some (encTs y m d 23 59 59 0) := by
    simpa using isoParse_formatYMD y m d hv
  simp [getSortKey, h, hne, isoInput, hT, hiso]

/-- A record with a valid canonical timestamp sorts by that timestamp. -/
theorem getSortKey_valid_time (r : Assignment) (y m d h mi s : Nat)
    (hv : ValidDate y m d) (hh : h ≤ 23) (hmi : mi ≤ 59) (hs : s ≤ 59)
    (hr : r.due_date_parsed = some (formatYMDHMS y m d h mi s)) :
    getSortKey r = encTs y m d h mi s 0 := by
  have hne := formatYMDHMS_ne_empty y m d h mi s
  have hT := hasT_formatYMDHMS y m d h mi s
  have hiso := isoParse_formatYMDHMS y m d h mi s hv hh hmi hs
  simp [getSortKey, hr, hne, isoInput, hT, hiso]

/-- Every sort key is at most the sentinel. -/
theorem getSortKey_le_dtMax (r : Assignment) : getSortKey r ≤ dtMax := by
  cases hd : r.due_date_parsed with
  | none => simp [getSortKey, hd]
  | some s =>
    by_cases hs : s = ""
    · simp [getSortKey, hd, hs]
    · cases hp : isoParse (isoInput s) with
      | none => simp [getSortKey, hd, hs, hp]
      | some n =>
        have hk : getSortKey r = n := by simp [getSortKey, hd, hs, hp]
        rw [hk]
        exact le_of_lt (isoParse_lt_dtMax _ _ hp)

/-! ### Chronological sorter (C3): stability and the claim -/

/-- Inserting an element preserves the filtered key class, with the new
element in front of its own class (it is inserted before the first
element of equal or larger key, hence before every equal-key element). -/
theorem filter_orderedInsert (k : Nat) (a : Assignment)
    (l : List Assignment) :
    (List.orderedInsert keyLE a l).filter (fun r => getSortKey r == k) =
      if getSortKey a == k then
        a :: l.filter (fun r => getSortKey r == k)
      else l.filter (fun r => getSortKey r == k) := by
  induction l with
  | nil => simp [List.orderedInsert, List.filter_cons]
  | cons b t ih =>
    have hcons : List.orderedInsert keyLE a (b :: t) =
        if keyLE a b then a :: b :: t
        else b :: List.orderedInsert keyLE a t := rfl
    rw [hcons]
    by_cases hab : keyLE a b
    · rw [if_pos hab, List.filter_cons]
    · rw [if_neg hab, List.filter_cons, List.filter_cons, ih]
      cases hpa : (getSortKey a == k) <;> cases hpb : (getSortKey b == k)
      · simp [hpa, hpb]
      · simp [hpa, hpb]
      · simp [hpa, hpb]
      · exfalso
        apply hab
        have h1 : getSortKey a = k := by simpa using hpa
        have h2 : getSortKey b = k := by simpa using hpb
        exact le_of_eq (by rw [h1, h2])

/-- Stability of the sorter: each key class appears in the output in its
input order. -/
theorem filter_sortKey_stable (k : Nat) (l : List Assignment) :
    (sortAssignmentsByDate l).filter (fun r => getSortKey r == k) =
      l.filter (fun r => getSortKey r == k) := by
  induction l with
  | nil => rfl
  | cons x xs ih =>
    show (List.orderedInsert keyLE x
        (List.insertionSort keyLE xs)).filter (fun r => getSortKey r == k) =
      (x :: xs).filter (fun r => getSortKey r == k)
    rw [filter_orderedInsert, List.filter_cons]
    unfold sortAssignmentsByDate at ih
    rw [ih]

/-- C3: sort_assignments_by_date is a stable total-order sort: the output
is a permutation of the input, ordered by the derived key; every key
class keeps its input order (stability — in particular all
maximum-sentinel records keep their relative order); a record whose
due_date_parsed is a valid YYYY-MM-DD gets the end-of-day 23:59:59
timestamp of that date as its key, strictly below the sentinel (so it is
placed before every sentinel record); a value with a time component is
parsed as a full timestamp; and a record whose value is absent, empty,
or rejected by re-parsing gets the maximum sentinel key, the largest key
any record can have. -/
theorem C3_sorter (l : List Assignment) :
    (sortAssignmentsByDate l).Perm l ∧
    (sortAssignmentsByDate l).Pairwise keyLE ∧
    (∀ k : Nat, (sortAssignmentsByDate l).filter (fun r => getSortKey r == k) =
      l.filter (fun r => getSortKey r == k)) ∧
    (∀ r : Assignment, r.due_date_parsed = none → getSortKey r = dtMax) ∧
    (∀ r : Assignment, r.due_date_parsed = some "" → getSortKey r = dtMax) ∧
    (∀ (r : Assignment) (s : String), r.due_date_parsed = some s → s ≠ "" →
      isoParse (isoInput s) = none → getSortKey r = dtMax) ∧
    (∀ (r : Assignment) (y m d : Nat), ValidDate y m d →
      r.due_date_parsed = some (formatYMD y m d) →
      getSortKey r = encTs y m d 23 59 59 0 ∧
        encTs y m d 23 59 59 0 < dtMax) ∧
    (∀ (r : Assignment) (y m d h mi s : Nat), ValidDate y m d → h ≤ 23 →
      mi ≤ 59 → s ≤ 59 →
      r.due_date_parsed = some (formatYMDHMS y m d h mi s) →
      getSortKey r = encTs y m d h mi s 0) ∧
    (∀ r : Assignment, getSortKey r ≤ dtMax) := by
  refine ⟨List.perm_insertionSort keyLE l, List.sorted_insertionSort keyLE l,
    fun k => filter_sortKey_stable k l, getSortKey_none, getSortKey_empty,
    getSortKey_fail, ?_, ?_, getSortKey_le_dtMax⟩
  · intro r y m d hv hr
    refine ⟨getSortKey_valid r y m d hv hr, ?_⟩
    obtain ⟨h1, h2, h3, h4, h5, h6⟩ := hv
    exact encTs_lt_dtMax y m d 23 59 59 h2 h4
      (le_trans h6 (daysInMonth_le y m)) (by omega) (by omega) (by omega)
  · intro r y m d h mi s hv hh hmi hs hr
    exact getSortKey_valid_time r y m d h mi s hv hh hmi hs hr

/-- Witness for C3 on the spec's four-record test list: one RawFallback
record, one Absent record and two dated records; the dated records come
first in date order and the two non-canonical records keep their input
order at the end. -/
theorem C3_sorter_witness :
    (sortAssignmentsByDate demoSortList).Perm demoSortList ∧
    getSortKey demoRecEarlier = encTs 2025 3 5 23 59 59 0 ∧
    getSortKey demoRecRaw = dtMax ∧
    sortAssignmentsByDate demoSortList =
      [demoRecEarlier, demoRecLater, demoRecRaw, demoRecAbsent] := by
  refine ⟨(C3_sorter demoSortList).1, ?_, ?_, by decide⟩
  · exact ((C3_sorter demoSortList).2.2.2.2.2.2.1 demoRecEarlier 2025 3 5
      (by decide) (by decide)).1
  · exact (C3_sorter demoSortList).2.2.2.2.2.1 demoRecRaw "zzz"
      rfl (by decide) (by decide)

/-! ### Course color allocator (C4, C5) -/

/-- The candidate slot list is exactly 1..15. -/
theorem mem_candidates (n : Nat) :
    n ∈ (List.range 15).map (fun i => i + 1) ↔ 1 ≤ n ∧ n ≤ 15 := by
  simp only [List.mem_map, List.mem_range]
  constructor
  · rintro ⟨i, hi, rfl⟩
    omega
  · intro h
    exact ⟨n - 1, by omega, by omega⟩

/-- In a strictly increasing list, the head of the filtered list is the
first satisfier. -/
theorem headD_filter_first (cand : List Nat) (p : Nat → Bool)
    (n dflt : Nat) (hpw : cand.Pairwise (fun a b => a < b)) (hmem : n ∈ cand)
    (hpn : p n = true) (hlt : ∀ k ∈ cand, k < n → p k = false) :
    (cand.filter p).headD dflt = n := by
  induction cand with
  | nil => simp at hmem
  | cons c rest ih =>
    rcases List.mem_cons.mp hmem with rfl | hmem2
    · simp [List.filter_cons, hpn]
    · have hcn : c < n := (List.pairwise_cons.mp hpw).1 n hmem2
      have hpc : p c = false := hlt c (List.mem_cons_self _ _) hcn
      rw [List.filter_cons]
      simp only [hpc, Bool.false_eq_true, if_false]
      exact ih (List.pairwise_cons.mp hpw).2 hmem2
        (fun k hk hkn => hlt k (List.mem_cons_of_mem _ hk) hkn)

/-- When a slot in range is free and all smaller slots are used, it is
the lowest free slot. -/
theorem minFree_eq (used : List Nat) (n : Nat) (h1 : 1 ≤ n) (h15 : n ≤ 15)
    (hn : n ∉ used) (hlt : ∀ i, 1 ≤ i → i < n → i ∈ used) :
    minFree used = n := by
  unfold minFree
  apply headD_filter_first
  · decide
  · exact (mem_candidates n).mpr ⟨h1, h15⟩
  · exact decide_eq_true hn
  · intro k hk hkn
    have hb := (mem_candidates k).mp hk
    exact decide_eq_false (not_not_intro (hlt k hb.1 hkn))

/-- When every slot in range is used, the lowest-free rule yields 1. -/
theorem minFree_one (used : List Nat)
    (hall : ∀ i, 1 ≤ i → i ≤ 15 → i ∈ used) : minFree used = 1 := by
  unfold minFree
  have hnil : (((List.range 15).map (fun i => i + 1)).filter
      (fun k => decide (k ∉ used))) = [] := by
    rw [List.filter_eq_nil_iff]
    intro a ha
    have hb := (mem_candidates a).mp ha
    simp [hall a hb.1 hb.2]
  rw [hnil]
  rfl

/-- The lowest-free slot is always in range. -/
theorem minFree_bounds (used : List Nat) :
    1 ≤ minFree used ∧ minFree used ≤ 15 := by
  unfold minFree
  cases hf : (((List.range 15).map (fun i => i + 1)).filter
      (fun k => decide (k ∉ used))) with
  | nil => simp
  | cons a t =>
    have ha : a ∈ (((List.range 15).map (fun i => i + 1)).filter
        (fun k => decide (k ∉ used))) := by
      rw [hf]; exact List.mem_cons_self _ _
    have := (mem_candidates a).mp (List.mem_of_mem_filter ha)
    simpa using this

/-- The while loop of next_number computes the lowest-free rule: at entry
point n with all smaller slots used, it returns the lowest free slot in
range, or 1 when all fifteen are used, adding it to the used set. -/
theorem nextNumberGo_eq (fuel : Nat) :
    ∀ (n : Nat) (used : List Nat), 16 - n ≤ fuel → 1 ≤ n → n ≤ 15 →
    (∀ i, 1 ≤ i → i < n → i ∈ used) →
    nextNumberGo used n = (minFree used, minFree used :: used) := by
  induction fuel with
  | zero =>
    intro n used hf h1 h15 _
    omega
  | succ f ih =>
    intro n used hf h1 h15 hlt
    unfold nextNumberGo
    by_cases hmem : n ∈ used
    · rw [if_neg (not_not_intro hmem)]
      by_cases hwrap : n + 1 > 15
      · rw [if_pos hwrap]
        have hall : ∀ i, 1 ≤ i → i ≤ 15 → i ∈ used := by
          intro i hi1 hi15
          rcases Nat.lt_or_ge i n with hlt2 | hge
          · exact hlt i hi1 hlt2
          · have : i = n := by omega
            rw [this]; exact hmem
        rw [minFree_one used hall]
      · rw [if_neg hwrap]
        exact ih (n + 1) used (by omega) (by omega) (by omega)
          (fun i hi1 hilt => by
            rcases Nat.lt_or_ge i n with h | h
            · exact hlt i hi1 h
            · have : i = n := by omega
              rw [this]; exact hmem)
    · rw [if_pos hmem, minFree_eq used n h1 h15 hmem hlt]

/-- next_number is the lowest-free rule. -/
theorem nextNumber_eq (used : List Nat) :
    nextNumber used = (minFree used, minFree used :: used) :=
  nextNumberGo_eq 15 1 used (by omega) (by omega) (by omega)
    (fun i h1 hl => absurd hl (by omega))

/-- Key membership through lookup. -/
theorem lookup_isSome_iff (l : List (String × String)) (c : String) :
    (l.lookup c).isSome = true ↔ c ∈ l.map Prod.fst := by
  induction l with
  | nil => simp [List.lookup]
  | cons p rest ih =>
    obtain ⟨k, v⟩ := p
    by_cases hck : c = k
    · subst hck
      simp [List.lookup]
    · have hb : (c == k) = false := by simp [hck]
      simp [List.lookup, hb, ih, hck]

/-- A key bound in the front of an association list keeps its value when
the list is extended on the right. -/
theorem lookup_append_left (l1 l2 : List (String × String)) (c v : String)
    (h : l1.lookup c = some v) : (l1 ++ l2).lookup c = some v := by
  induction l1 with
  | nil => simp [List.lookup] at h
  | cons p rest ih =>
    obtain ⟨k, w⟩ := p
    cases hb : (c == k) with
    | true =>
      simp only [List.cons_append, List.lookup, hb] at h ⊢
      exact h
    | false =>
      simp only [List.cons_append, List.lookup, hb] at h ⊢
      exact ih h

/-- Unfolding the claim's allocation description one course at a time. -/
theorem specNewEntries_cons (ks : List String) (used : List Nat)
    (a : String) (rest : List String) :
    specNewEntries ks used (a :: rest) =
      if a ∈ ks then specNewEntries ks used rest
      else (a, colorLabel (minFree used)) ::
        specNewEntries (a :: ks) (minFree used :: used) rest :=
  rfl

/-- The allocation description depends on the bound-key list only
through membership. -/
theorem specNewEntries_congr (l : List String) :
    ∀ (ks1 ks2 : List String) (used : List Nat),
    (∀ x, x ∈ ks1 ↔ x ∈ ks2) →
    specNewEntries ks1 used l = specNewEntries ks2 used l := by
  induction l with
  | nil => intros; rfl
  | cons a rest ih =>
    intro ks1 ks2 used hks
    rw [specNewEntries_cons, specNewEntries_cons]
    by_cases ha : a ∈ ks1
    · rw [if_pos ha, if_pos ((hks a).mp ha)]
      exact ih ks1 ks2 used hks
    · rw [if_neg ha, if_neg (fun hc => ha ((hks a).mpr hc))]
      have hks2 : ∀ x, x ∈ a :: ks1 ↔ x ∈ a :: ks2 := by
        intro x
        simp [hks x]
      rw [ih (a :: ks1) (a :: ks2) _ hks2]

/-- The allocation loop, characterized: folding the per-course step over
any course list appends exactly the claim's described new entries. -/
theorem allocFold_eq (l : List String) :
    ∀ (mp : List (String × String)) (used : List Nat),
    (l.foldl allocStep (mp, used)).1 =
      mp ++ specNewEntries (mp.map Prod.fst) used l := by
  induction l with
  | nil =>
    intro mp used
    simp [specNewEntries]
  | cons c rest ih =>
    intro mp used
    rw [List.foldl_cons, specNewEntries_cons]
    by_cases hc : (mp.lookup c).isSome = true
    · have hstep : allocStep (mp, used) c = (mp, used) := by
        simp [allocStep, hc]
      rw [hstep, ih, if_pos ((lookup_isSome_iff mp c).mp hc)]
    · have hstep : allocStep (mp, used) c =
          (mp ++ [(c, colorLabel (minFree used))], minFree used :: used) := by
        simp [allocStep, hc, nextNumber_eq]
      rw [hstep, ih, if_neg (fun hm => hc ((lookup_isSome_iff mp c).mpr hm))]
      rw [List.append_assoc]
      congr 1
      simp only [List.cons_append, List.nil_append]
      congr 1
      apply specNewEntries_congr
      intro x
      simp [List.map_append, or_comm]

/-- update_course_colors appends exactly the described new entries. -/
theorem updateCourseColors_eq (m : List (String × String))
    (classes : List String) :
    updateCourseColors m classes =
      m ++ specNewEntries (m.map Prod.fst) (usedNums m) (sortCI classes) := by
  unfold updateCourseColors
  exact allocFold_eq (sortCI classes) m (usedNums m)

/-- Every course of the processed list ends up bound: it was already a
key, or it appears among the new entries. -/
theorem specNewEntries_covers (l : List String) :
    ∀ (ks : List String) (used : List Nat) (c : String), c ∈ l →
    c ∈ ks ∨ c ∈ (specNewEntries ks used l).map Prod.fst := by
  induction l with
  | nil => simp
  | cons a rest ih =>
    intro ks used c hc
    rw [specNewEntries_cons]
    by_cases ha : a ∈ ks
    · rw [if_pos ha]
      rcases List.mem_cons.mp hc with rfl | hc2
      · exact Or.inl ha
      · exact ih ks used c hc2
    · rw [if_neg ha]
      rcases List.mem_cons.mp hc with rfl | hc2
      · exact Or.inr (by simp)
      · rcases ih (a :: ks) (minFree used :: used) c hc2 with hk | hk
        · rcases List.mem_cons.mp hk with rfl | hk2
          · exact Or.inr (by simp)
          · exact Or.inl hk2
        · exact Or.inr (by simp [hk])

/-- When every processed course is already bound, nothing is added. -/
theorem specNewEntries_nil_of_all_mem (l : List String) :
    ∀ (ks : List String) (used : List Nat), (∀ c ∈ l, c ∈ ks) →
    specNewEntries ks used l = [] := by
  induction l with
  | nil => intros; rfl
  | cons a rest ih =>
    intro ks used hall
    rw [specNewEntries_cons, if_pos (hall a (List.mem_cons_self _ _))]
    exact ih ks used (fun c hc => hall c (List.mem_cons_of_mem _ hc))

/-- C4: the allocator processes the courses absent from the map in
case-insensitive alphabetical order, assigning each the slot with the
lowest number in [1, 15] not already used (the used numbers being the
map's numeric suffixes plus slots allocated earlier in the run); the
while loop implements exactly the lowest-free rule, returns 1 — never 16
and never a rotating choice — once all fifteen numbers are used, and
always returns a slot in [1, 15]. -/
theorem C4_color_allocation :
    (∀ (m : List (String × String)) (classes : List String),
      updateCourseColors m classes =
        m ++ specNewEntries (m.map Prod.fst) (usedNums m) (sortCI classes)) ∧
    (∀ used : List Nat,
      nextNumber used = (minFree used, minFree used :: used)) ∧
    (∀ used : List Nat, (∀ i, 1 ≤ i → i ≤ 15 → i ∈ used) →
      (nextNumber used).1 = 1) ∧
    (∀ used : List Nat,
      1 ≤ (nextNumber used).1 ∧ (nextNumber used).1 ≤ 15) := by
  refine ⟨updateCourseColors_eq, nextNumber_eq, ?_, ?_⟩
  · intro used hall
    rw [nextNumber_eq, minFree_one used hall]
  · intro used
    rw [nextNumber_eq]
    exact minFree_bounds used

/-- Witness for C4: with all fifteen slots bound, a sixteenth course gets
slot 1; and the spec's three-course example allocates 1, 2, 3 in
case-insensitive alphabetical order. -/
theorem C4_color_allocation_witness :
    (nextNumber [1, 2, 3, 4, 5, 6, 7, 8, 9, 10, 11, 12, 13, 14, 15]).1 = 1 ∧
    updateCourseColors [] ["Zoo", "art", "Bio"] =
      [("art", "course-color-1"), ("Bio", "course-color-2"),
       ("Zoo", "course-color-3")] := by
  constructor
  · exact C4_color_allocation.2.2.1 _ (by decide)
  · rw [C4_color_allocation.1 [] ["Zoo", "art", "Bio"]]
    decide

/-- C5: reconciliation never changes the value bound to a course already
in the map (bindings persist whether or not the course appears in the
current run), and running the allocator twice with the same course set
produces an identical map. -/
theorem C5_color_stability (m : List (String × String)) (cs : List String) :
    (∀ c v, m.lookup c = some v →
      (updateCourseColors m cs).lookup c = some v) ∧
    updateCourseColors (updateCourseColors m cs) cs =
      updateCourseColors m cs := by
  constructor
  · intro c v hcv
    rw [updateCourseColors_eq]
    exact lookup_append_left m _ c v hcv
  · rw [updateCourseColors_eq m cs, updateCourseColors_eq]
    suffices hnil : specNewEntries
        ((m ++ specNewEntries (m.map Prod.fst) (usedNums m)
          (sortCI cs)).map Prod.fst)
        (usedNums (m ++ specNewEntries (m.map Prod.fst) (usedNums m)
          (sortCI cs)))
        (sortCI cs) = [] by
      rw [hnil, List.append_nil]
    apply specNewEntries_nil_of_all_mem
    intro c hc
    have hcov := specNewEntries_covers (sortCI cs) (m.map Prod.fst)
      (usedNums m) c hc
    simp only [List.map_append, List.mem_append]
    tauto

/-- Witness for C5: an existing binding survives a run that adds a new
course. -/
theorem C5_color_stability_witness :
    (updateCourseColors [("Math", "course-color-7")] ["Art"]).lookup "Math" =
      some "course-color-7" :=
  (C5_color_stability [("Math", "course-color-7")] ["Art"]).1
    "Math" "course-color-7" rfl

end HomeworkChecker
